import Mathlib

/-!
Verification of the Coral Spectrum UI component library against its
natural-language specification.  The JavaScript sources are shallowly
embedded: DOM elements become records of attributes, the overlay stack
becomes a Lean list (bottom of the stack first, top of the stack last,
mirroring a JS array used with push), and JS values are modelled by an
inductive type with JS truthiness.
-/

namespace Coral

/-- JavaScript values as they occur in the embedded code: strings,
booleans, integral numbers, null and undefined. -/
inductive JSVal where
  | vStr (s : String)
  | vBool (b : Bool)
  | vNum (n : Int)
  | vNull
  | vUndefined
deriving DecidableEq, Repr

namespace JSVal

/-- JS truthiness of a value. -/
def truthy : JSVal → Bool
  | vStr s => s ≠ ""
  | vBool b => b
  | vNum n => n ≠ 0
  | vNull => false
  | vUndefined => false

/-- JS String(value) coercion (numbers restricted to integers). -/
def toStringJS : JSVal → String
  | vStr s => s
  | vBool b => if b then "true" else "false"
  | vNum n => toString n
  | vNull => "null"
  | vUndefined => "undefined"

/-- JS a && b. -/
def jsAnd (a b : JSVal) : JSVal := if a.truthy then b else a

/-- JS a || b. -/
def jsOr (a b : JSVal) : JSVal := if a.truthy then a else b

end JSVal

/-! ### The overlay stack (src/coral-base-overlay/src/scripts/BaseOverlay.js)

An entry of `overlayStack`.  The `instance` (a DOM element) is modelled
by a numeric identity; the entry records the assigned `zIndex` and the
`backdrop` flag set by `_showBackdrop` / `_hideBackdrop`. -/
structure Overlay where
  inst : Nat
  zIndex : Int
  backdrop : Bool
deriving DecidableEq, Repr

/-- `const startZIndex = 10000`. -/
def startZIndex : Int := 10000

namespace OverlayManager

/-- `OverlayManager.pop(instance)`: find the first stack entry whose
`instance` matches (`indexOf`), splice it out, and return it; return
null (`none`) and leave the stack alone when there is no such entry. -/
def pop (i : Nat) : List Overlay → Option Overlay × List Overlay
  | [] => (none, [])
  | o :: rest =>
    if o.inst = i then (some o, rest)
    else
      let p := pop i rest
      (p.1, o :: p.2)

/-- `OverlayManager.top()`: the last element of the stack array. -/
def top (s : List Overlay) : Option Overlay := s.getLast?

/-- `OverlayManager.getHighestZIndex()`: the top entry's zIndex, or
`startZIndex` when the stack is empty. -/
def getHighestZIndex (s : List Overlay) : Int :=
  match top s with
  | some o => o.zIndex
  | none => startZIndex

/-- `OverlayManager.push(instance)`: pop the instance (reusing the found
entry record, hence keeping `backdrop`), assign
`getHighestZIndex() + 10` as the new zIndex and push the entry on top.
Returns the pushed entry together with the new stack. -/
def push (i : Nat) (s : List Overlay) : Overlay × List Overlay :=
  let p := pop i s
  let z := getHighestZIndex p.2 + 10
  let ov : Overlay :=
    { inst := i, zIndex := z
      backdrop := match p.1 with | some o => o.backdrop | none => false }
  (ov, p.2 ++ [ov])

end OverlayManager

/-- A sequence of overlay-stack operations. -/
inductive StackOp where
  | push (i : Nat)
  | pop (i : Nat)
deriving DecidableEq, Repr

/-- One operation applied to the stack. -/
def stepOp (s : List Overlay) (op : StackOp) : List Overlay :=
  match op with
  | .push i => (OverlayManager.push i s).2
  | .pop i => (OverlayManager.pop i s).2

/-- The stack obtained from the empty initial stack by a sequence of
push/pop operations. -/
def runOps (ops : List StackOp) : List Overlay := ops.foldl stepOp []

/-- The instances currently on the stack, bottom first. -/
def instances (s : List Overlay) : List Nat := s.map (·.inst)

/-- The overlay-stack invariant: every instance occurs at most once and
the stored zIndex values strictly increase from bottom to top. -/
def StackInv (s : List Overlay) : Prop :=
  (instances s).Nodup ∧ (s.map (·.zIndex)).Pairwise (· < ·)

/-! Basic lemmas about `pop`. -/

theorem pop_snd_sublist (i : Nat) (s : List Overlay) :
    (OverlayManager.pop i s).2.Sublist s := by
  induction s with
  | nil => simp [OverlayManager.pop]
  | cons o rest ih =>
    by_cases h : o.inst = i
    · simp [OverlayManager.pop, h]
    · simpa [OverlayManager.pop, h] using ih.cons₂ o

theorem pop_not_found (i : Nat) (s : List Overlay)
    (h : ∀ o ∈ s, o.inst ≠ i) : OverlayManager.pop i s = (none, s) := by
  induction s with
  | nil => rfl
  | cons o rest ih =>
    have ho : o.inst ≠ i := h o (by simp)
    have hrest : ∀ o ∈ rest, o.inst ≠ i := fun o ho => h o (by simp [ho])
    simp [OverlayManager.pop, ho, ih hrest]

theorem pop_removes_inst (i : Nat) (s : List Overlay)
    (h : (instances s).Nodup) : i ∉ instances (OverlayManager.pop i s).2 := by
  induction s with
  | nil => simp [OverlayManager.pop, instances]
  | cons o rest ih =>
    simp only [instances, List.map_cons, List.nodup_cons] at h
    by_cases ho : o.inst = i
    · intro hmem
      have : i ∈ instances rest := by
        simpa [OverlayManager.pop, ho, instances] using hmem
      exact h.1 (ho ▸ (by simpa [instances] using this))
    · intro hmem
      have hmem2 : i = o.inst ∨ i ∈ instances (OverlayManager.pop i rest).2 := by
        simpa [OverlayManager.pop, ho, instances] using hmem
      rcases hmem2 with h1 | h2
      · exact ho h1.symm
      · exact ih h.2 h2

/-- In a stack whose zIndex values strictly increase bottom to top, every
entry's zIndex is at most the top entry's zIndex. -/
theorem zIndex_le_highest (s : List Overlay)
    (h : (s.map (·.zIndex)).Pairwise (· < ·)) :
    ∀ o ∈ s, o.zIndex ≤ OverlayManager.getHighestZIndex s := by
  induction s with
  | nil => simp
  | cons a rest ih =>
    intro o ho
    cases rest with
    | nil =>
      rcases List.mem_cons.mp ho with rfl | hmem
      · simp [OverlayManager.getHighestZIndex, OverlayManager.top]
      · simp at hmem
    | cons b rest2 =>
      have hh : OverlayManager.getHighestZIndex (a :: b :: rest2) =
          OverlayManager.getHighestZIndex (b :: rest2) := by
        simp [OverlayManager.getHighestZIndex, OverlayManager.top,
          List.getLast?_cons_cons]
      rw [hh]
      rcases List.mem_cons.mp ho with rfl | hmem
      · have hlast : (b :: rest2).getLast? = some ((b :: rest2).getLast (by simp)) :=
          List.getLast?_eq_getLast _ (by simp)
        have hmemlast : (b :: rest2).getLast (by simp) ∈ b :: rest2 :=
          List.getLast_mem _
        have hlt : o.zIndex < ((b :: rest2).getLast (by simp)).zIndex :=
          (List.pairwise_cons.mp h).1 _ (List.mem_map_of_mem (·.zIndex) hmemlast)
        have heq : OverlayManager.getHighestZIndex (b :: rest2) =
            ((b :: rest2).getLast (by simp)).zIndex := by
          simp [OverlayManager.getHighestZIndex, OverlayManager.top, hlast]
        rw [heq]
        exact le_of_lt hlt
      · exact ih (List.pairwise_cons.mp h).2 o hmem

/-- `pop` preserves the stack invariant. -/
theorem stackInv_pop (i : Nat) (s : List Overlay) (h : StackInv s) :
    StackInv (OverlayManager.pop i s).2 := by
  obtain ⟨h1, h2⟩ := h
  have hs := pop_snd_sublist i s
  exact ⟨h1.sublist (hs.map _), h2.sublist (hs.map _)⟩

/-- `push` preserves the stack invariant. -/
theorem stackInv_push (i : Nat) (s : List Overlay) (h : StackInv s) :
    StackInv (OverlayManager.push i s).2 := by
  obtain ⟨h1, h2⟩ := h
  have hs := pop_snd_sublist i s
  have hpop1 : (instances (OverlayManager.pop i s).2).Nodup := h1.sublist (hs.map _)
  have hpop2 : ((OverlayManager.pop i s).2.map (·.zIndex)).Pairwise (· < ·) :=
    h2.sublist (hs.map _)
  have hni : i ∉ instances (OverlayManager.pop i s).2 := pop_removes_inst i s h1
  constructor
  · simp only [OverlayManager.push, instances, List.map_append, List.map_cons,
      List.map_nil]
    rw [List.nodup_append]
    refine ⟨hpop1, List.nodup_singleton i, ?_⟩
    intro a ha hb
    simp only [List.mem_singleton] at hb
    subst hb
    exact hni (by simpa [instances] using ha)
  · simp only [OverlayManager.push, List.map_append, List.map_cons, List.map_nil]
    rw [List.pairwise_append]
    refine ⟨hpop2, List.pairwise_singleton _ _, ?_⟩
    intro a ha b hb
    simp only [List.mem_singleton] at hb
    subst hb
    simp only [List.mem_map] at ha
    obtain ⟨o, ho, rfl⟩ := ha
    have := zIndex_le_highest _ hpop2 o ho
    omega

/-- Claim C1 (amended): every stack reachable by a sequence of push/pop
operations satisfies the invariant (each instance occurs at most once,
zIndex values strictly increase from bottom to top); push assigns the
pushed overlay a zIndex equal to 10 plus the highest zIndex of the stack
obtained after removing the pushed instance's existing entry
(startZIndex + 10 = 10010 when that stack is empty), which equals the
previous top's zIndex plus 10 whenever the pushed instance was not
already on the stack. -/
theorem overlay_stack_invariant (ops : List StackOp) :
    StackInv (runOps ops) ∧
    (∀ i s, (OverlayManager.push i s).1.zIndex =
        OverlayManager.getHighestZIndex (OverlayManager.pop i s).2 + 10) ∧
    (∀ i s, (∀ o ∈ s, o.inst ≠ i) →
        (OverlayManager.push i s).1.zIndex =
          OverlayManager.getHighestZIndex s + 10) := by
  refine ⟨?_, fun i s => rfl, fun i s h => ?_⟩
  · have main : ∀ (l : List StackOp) (s : List Overlay), StackInv s →
        StackInv (l.foldl stepOp s) := by
      intro l
      induction l with
      | nil => intro s hI; simpa using hI
      | cons op rest ih =>
        intro s hI
        simp only [List.foldl_cons]
        apply ih
        match op with
        | .push i => exact stackInv_push i s hI
        | .pop i => exact stackInv_pop i s hI
    exact main ops [] ⟨List.nodup_nil, List.Pairwise.nil⟩
  · rw [show (OverlayManager.push i s).1.zIndex =
        OverlayManager.getHighestZIndex (OverlayManager.pop i s).2 + 10 from rfl,
      pop_not_found i s h]

/-- Claim C1, counterexample to the claim as stated: pushing an overlay
that is already the top of the stack assigns it the zIndex it already
had (10010), not the previous top's zIndex plus 10 (10020). -/
theorem overlay_push_zIndex_counterexample :
    runOps [StackOp.push 0] = [⟨0, 10010, false⟩] ∧
    OverlayManager.getHighestZIndex (runOps [StackOp.push 0]) = 10010 ∧
    (OverlayManager.push 0 (runOps [StackOp.push 0])).1.zIndex = 10010 ∧
    (10010 : Int) ≠ OverlayManager.getHighestZIndex (runOps [StackOp.push 0]) + 10 := by
  refine ⟨rfl, rfl, rfl, by decide⟩

/-- Witness for C1: the hypothesis-bearing parts applied at concrete
inputs. -/
theorem overlay_stack_invariant_witness :
    StackInv (runOps [StackOp.push 0, StackOp.push 1, StackOp.pop 0]) ∧
    (OverlayManager.push 2 [⟨0, 10010, false⟩]).1.zIndex =
      OverlayManager.getHighestZIndex [⟨0, 10010, false⟩] + 10 := by
  have h := overlay_stack_invariant [StackOp.push 0, StackOp.push 1, StackOp.pop 0]
  refine ⟨h.1, h.2.2 2 [⟨0, 10010, false⟩] (by decide)⟩

/-- Claim C4: `OverlayManager.pop(instance)` returns null and leaves the
overlay stack completely unchanged when no stack entry has that
instance; otherwise (when the instance has exactly one entry, which the
stack invariant guarantees) it removes exactly that single entry,
preserving the order of all other entries, and returns the removed
entry. -/
theorem overlayManager_pop_correct (i : Nat) (s : List Overlay) :
    ((∀ o ∈ s, o.inst ≠ i) → OverlayManager.pop i s = (none, s)) ∧
    (s.countP (fun o => o.inst == i) = 1 →
      ∃ o ∈ s, o.inst = i ∧
        OverlayManager.pop i s = (some o, s.filter (fun o => o.inst != i))) := by
  refine ⟨pop_not_found i s, ?_⟩
  induction s with
  | nil => intro h; simp at h
  | cons o rest ih =>
    intro h
    by_cases ho : o.inst = i
    · have hnone : ∀ a ∈ rest, a.inst ≠ i := by
        have hc := h
        rw [List.countP_cons] at hc
        simp [ho] at hc
        exact hc
      have hfilter : rest.filter (fun o => o.inst != i) = rest :=
        List.filter_eq_self.mpr (fun a ha => by simpa using hnone a ha)
      refine ⟨o, by simp, ho, ?_⟩
      simp [OverlayManager.pop, ho, hfilter]
    · have hcount : rest.countP (fun o => o.inst == i) = 1 := by
        rw [List.countP_cons] at h
        simpa [ho] using h
      obtain ⟨a, ha, hai, heq⟩ := ih hcount
      refine ⟨a, by simp [ha], hai, ?_⟩
      simp [OverlayManager.pop, ho, heq]

/-- Witness for C4: both branches applied at concrete stacks. -/
theorem overlayManager_pop_correct_witness :
    OverlayManager.pop 1 [⟨0, 10010, false⟩] = (none, [⟨0, 10010, false⟩]) ∧
    ∃ o ∈ [Overlay.mk 0 10010 false, Overlay.mk 1 10020 true], o.inst = 1 ∧
      OverlayManager.pop 1 [⟨0, 10010, false⟩, ⟨1, 10020, true⟩] =
        (some o, [⟨0, 10010, false⟩]) := by
  constructor
  · exact (overlayManager_pop_correct 1 [⟨0, 10010, false⟩]).1 (by decide)
  · have h := (overlayManager_pop_correct 1
      [⟨0, 10010, false⟩, ⟨1, 10020, true⟩]).2 (by decide)
    obtain ⟨o, ho, hoi, heq⟩ := h
    exact ⟨o, ho, hoi, heq⟩

/-! ### The shared backdrop (src/coral-base-overlay/src/scripts/BaseOverlay.js) -/

/-- The shared backdrop element `backdropEl`: its `_isOpen` flag and its
`style.zIndex`.  (CSS classes and the fade animation are not modelled;
`_isOpen` is the flag the source itself uses to decide visibility.) -/
structure BackdropEl where
  isOpen : Bool
  zIndex : Int
deriving DecidableEq, Repr

/-- Global overlay state: the overlay stack plus the backdrop element,
`none` before the backdrop element is first created. -/
structure OverlayGlobal where
  stack : List Overlay
  backdrop : Option BackdropEl
deriving DecidableEq, Repr

/-- `OverlayManager.get(instance)`: the first stack entry for the
instance, if any. -/
def OverlayManager.get (i : Nat) (s : List Overlay) : Option Overlay :=
  s.find? (fun o => o.inst == i)

/-- The zIndex of the topmost stack entry with `backdrop` set, scanning
downward from the top exactly like the loop in `doRepositionBackdrop`. -/
def topmostBackdropZ (s : List Overlay) : Option Int :=
  match s.reverse.find? (·.backdrop) with
  | some o => some o.zIndex
  | none => none

/-- `doRepositionBackdrop()`: when the stack is non-empty, position the
backdrop just under the topmost overlay that has a backdrop.  (Its
`hideEverythingBut` call only touches aria-hidden attributes and is
modelled separately.) -/
def doRepositionBackdrop (s : List Overlay) (b : BackdropEl) : BackdropEl :=
  match OverlayManager.top s with
  | none => b
  | some _ =>
    match topmostBackdropZ s with
    | some z => { b with zIndex := z - 1 }
    | none => b

/-- `doBackdropHide()`: close the backdrop (`_isOpen = false`). -/
def doBackdropHide (b : BackdropEl) : BackdropEl := { b with isOpen := false }

/-- `hideOrRepositionBackdrop()`: do nothing unless the backdrop element
exists and is open; then hide it when no stacked overlay uses a backdrop
and reposition it otherwise.  (The document tab-capture bookkeeping at
its end does not affect the stack or the backdrop.) -/
def hideOrRepositionBackdrop (g : OverlayGlobal) : OverlayGlobal :=
  match g.backdrop with
  | none => g
  | some b =>
    if b.isOpen then
      if g.stack.any (·.backdrop) then
        { g with backdrop := some (doRepositionBackdrop g.stack b) }
      else
        { g with backdrop := some (doBackdropHide b) }
    else g

/-- `_popOverlay()`: pop this overlay from the stack, then
`hideOrRepositionBackdrop()`. -/
def popOverlayFn (i : Nat) (g : OverlayGlobal) : OverlayGlobal :=
  hideOrRepositionBackdrop { g with stack := (OverlayManager.pop i g.stack).2 }

/-- `overlay.backdrop = v` on the entry found by `OverlayManager.get`:
update the first matching entry only. -/
def setBackdropFirst (i : Nat) (v : Bool) : List Overlay → List Overlay
  | [] => []
  | o :: rest =>
    if o.inst = i then { o with backdrop := v } :: rest
    else o :: setBackdropFirst i v rest

/-- `_hideBackdrop()`: when the overlay is tracked on the stack, clear
its `backdrop` flag and run `hideOrRepositionBackdrop()`; otherwise the
stack and the backdrop element are untouched (only the untracked
`_requestedBackdrop` instance flag changes). -/
def hideBackdropFn (i : Nat) (g : OverlayGlobal) : OverlayGlobal :=
  match OverlayManager.get i g.stack with
  | some _ => hideOrRepositionBackdrop { g with stack := setBackdropFirst i false g.stack }
  | none => g

/-- `doBackdropShow(zIndex, instance)`: create the backdrop element if
needed, position it just under the provided zIndex and open it. -/
def doBackdropShow (z : Int) (_b : Option BackdropEl) : BackdropEl :=
  { isOpen := true, zIndex := z - 1 }

/-- `_showBackdrop()`: when the overlay is tracked on the stack, set its
`backdrop` flag and show the backdrop at `overlay.zIndex`. -/
def showBackdropFn (i : Nat) (g : OverlayGlobal) : OverlayGlobal :=
  match OverlayManager.get i g.stack with
  | some o =>
    { stack := setBackdropFirst i true g.stack
      backdrop := some (doBackdropShow o.zIndex g.backdrop) }
  | none => g

/-- `_pushOverlay()`: push onto the stack; when the (re)pushed entry has
a backdrop, reposition the backdrop element. -/
def pushOverlayFn (i : Nat) (g : OverlayGlobal) : OverlayGlobal :=
  let p := OverlayManager.push i g.stack
  if p.1.backdrop then
    { stack := p.2, backdrop := g.backdrop.map (doRepositionBackdrop p.2) }
  else
    { stack := p.2, backdrop := g.backdrop }

/-- Whether the backdrop of a global state is currently open. -/
def backdropOpen (g : OverlayGlobal) : Bool :=
  match g.backdrop with
  | some b => b.isOpen
  | none => false

theorem topmostBackdropZ_of_any (s : List Overlay) (h : s.any (·.backdrop) = true) :
    ∃ z, topmostBackdropZ s = some z := by
  have hex : ∃ o ∈ s.reverse, o.backdrop = true := by
    obtain ⟨o, ho, hb⟩ := List.any_eq_true.mp h
    exact ⟨o, List.mem_reverse.mpr ho, hb⟩
  have : (s.reverse.find? (·.backdrop)).isSome := by
    rw [List.find?_isSome]
    obtain ⟨o, ho, hb⟩ := hex
    exact ⟨o, ho, hb⟩
  match hf : s.reverse.find? (·.backdrop) with
  | some o => exact ⟨o.zIndex, by simp [topmostBackdropZ, hf]⟩
  | none => rw [hf] at this; simp at this

theorem doReposition_of_any (s : List Overlay) (b : BackdropEl)
    (h : s.any (·.backdrop) = true) :
    ∃ z, topmostBackdropZ s = some z ∧
      doRepositionBackdrop s b = { b with zIndex := z - 1 } := by
  obtain ⟨z, hz⟩ := topmostBackdropZ_of_any s h
  have hne : s ≠ [] := by
    rintro rfl
    simp at h
  have htop : (OverlayManager.top s).isSome := by
    rw [OverlayManager.top, List.getLast?_isSome]
    exact hne
  match ho : OverlayManager.top s with
  | none => rw [ho] at htop; simp at htop
  | some o => exact ⟨z, hz, by simp [doRepositionBackdrop, ho, hz]⟩

/-- The behaviour of `hideOrRepositionBackdrop` on an open backdrop. -/
theorem hideOrReposition_open (s : List Overlay) (b : BackdropEl)
    (hopen : b.isOpen = true) :
    (backdropOpen (hideOrRepositionBackdrop ⟨s, some b⟩) = false ↔
      s.all (fun o => !o.backdrop) = true) ∧
    (s.any (·.backdrop) = true →
      ∃ z, topmostBackdropZ s = some z ∧
        hideOrRepositionBackdrop ⟨s, some b⟩ = ⟨s, some ⟨true, z - 1⟩⟩) := by
  constructor
  · by_cases hany : s.any (·.backdrop) = true
    · obtain ⟨z, hz, hrw⟩ := doReposition_of_any s b hany
      simp only [hideOrRepositionBackdrop, hopen, if_true, hany, backdropOpen, hrw]
      constructor
      · intro hfalse
        simp [hopen] at hfalse
      · intro hall
        rw [List.all_eq_true] at hall
        obtain ⟨o, ho, hb⟩ := List.any_eq_true.mp hany
        have := hall o ho
        simp [hb] at this
    · have hany2 : s.any (·.backdrop) = false := by
        simpa using hany
      simp only [hideOrRepositionBackdrop, hopen, if_true, hany2, Bool.false_eq_true,
        if_false, backdropOpen, doBackdropHide]
      constructor
      · intro _
        rw [List.all_eq_true]
        intro o ho
        rw [List.any_eq_false] at hany2
        simpa using hany2 o ho
      · intro _; trivial
  · intro hany
    obtain ⟨z, hz, hrw⟩ := doReposition_of_any s b hany
    refine ⟨z, hz, ?_⟩
    simp [hideOrRepositionBackdrop, hopen, hany, hrw]

/-- Claim C3 (amended): whenever `_popOverlay` runs while the shared
backdrop is open — and whenever `_hideBackdrop` runs while it is open on
an overlay that is tracked on the stack — the backdrop ends hidden if
and only if no overlay remaining on the stack has `backdrop` set;
otherwise it stays shown repositioned so its z-index is exactly one less
than the zIndex of the topmost remaining stack entry with `backdrop`
set.  `_hideBackdrop` on an instance with no stack entry leaves the
backdrop untouched, and `doBackdropShow` positions the backdrop at the
requesting overlay's zIndex minus 1. -/
theorem backdrop_hide_or_reposition (g : OverlayGlobal) (b : BackdropEl) (i : Nat)
    (hb : g.backdrop = some b) (hopen : b.isOpen = true) :
    (let remaining := (OverlayManager.pop i g.stack).2
     (backdropOpen (popOverlayFn i g) = false ↔
        remaining.all (fun o => !o.backdrop) = true) ∧
     (remaining.any (·.backdrop) = true →
        ∃ z, topmostBackdropZ remaining = some z ∧
          (popOverlayFn i g).backdrop = some ⟨true, z - 1⟩)) ∧
    ((OverlayManager.get i g.stack).isSome →
      let remaining := setBackdropFirst i false g.stack
      (backdropOpen (hideBackdropFn i g) = false ↔
        remaining.all (fun o => !o.backdrop) = true) ∧
      (remaining.any (·.backdrop) = true →
        ∃ z, topmostBackdropZ remaining = some z ∧
          (hideBackdropFn i g).backdrop = some ⟨true, z - 1⟩)) ∧
    ((OverlayManager.get i g.stack) = none → hideBackdropFn i g = g) ∧
    (∀ z bOld, doBackdropShow z bOld = ⟨true, z - 1⟩) := by
  obtain ⟨s, bd⟩ := g
  simp only [OverlayGlobal.mk.injEq] at hb ⊢
  subst hb
  refine ⟨?_, ?_, ?_, fun z bOld => rfl⟩
  · have h := hideOrReposition_open (OverlayManager.pop i s).2 b hopen
    refine ⟨h.1, ?_⟩
    intro hany
    obtain ⟨z, hz, hrw⟩ := h.2 hany
    exact ⟨z, hz, by simp [popOverlayFn, hrw]⟩
  · intro hsome
    match hg : OverlayManager.get i s with
    | none => rw [hg] at hsome; simp at hsome
    | some o =>
      have h := hideOrReposition_open (setBackdropFirst i false s) b hopen
      refine ⟨?_, ?_⟩
      · simpa [hideBackdropFn, hg] using h.1
      · intro hany
        obtain ⟨z, hz, hrw⟩ := h.2 hany
        exact ⟨z, hz, by simp [hideBackdropFn, hg, hrw]⟩
  · intro hnone
    simp [hideBackdropFn, hnone]

/-- Claim C3, counterexample to the claim as stated (in a state reachable
by push, push, showBackdrop, showBackdrop): `_hideBackdrop` on an
instance that has no stack entry leaves the backdrop where the second
`_showBackdrop` put it (10009), although the topmost stack entry with a
backdrop has zIndex 10020, so the backdrop does not end one below it
(10019). -/
theorem backdrop_reposition_counterexample :
    (hideBackdropFn 2
        (showBackdropFn 0 (showBackdropFn 1
          (pushOverlayFn 1 (pushOverlayFn 0 ⟨[], none⟩))))).backdrop =
      some ⟨true, 10009⟩ ∧
    topmostBackdropZ
        (hideBackdropFn 2
          (showBackdropFn 0 (showBackdropFn 1
            (pushOverlayFn 1 (pushOverlayFn 0 ⟨[], none⟩))))).stack = some 10020 ∧
    (10009 : Int) ≠ 10020 - 1 := by
  refine ⟨by decide, by decide, by decide⟩

/-- Witness for C3: the theorem applied at a concrete open-backdrop
state. -/
theorem backdrop_hide_or_reposition_witness :
    backdropOpen (popOverlayFn 0
      ⟨[⟨0, 10010, true⟩], some ⟨true, 10009⟩⟩) = false := by
  have h := backdrop_hide_or_reposition
    ⟨[⟨0, 10010, true⟩], some ⟨true, 10009⟩⟩ ⟨true, 10009⟩ 0 rfl rfl
  exact h.1.1.mpr (by decide)

/-! ### DOM attributes -/

/-- A DOM element's attributes as a (name, value) list; DOM keeps the
names unique, which `setAttr` preserves. -/
abbrev AttrMap := List (String × String)

/-- `getAttribute(name)`: the value, or `none` for JS null. -/
def getAttr (m : AttrMap) (name : String) : Option String :=
  (m.find? (fun p => p.1 == name)).map (fun p => p.2)

/-- `hasAttribute(name)`. -/
def hasAttr (m : AttrMap) (name : String) : Bool :=
  (getAttr m name).isSome

/-- `setAttribute(name, value)`: overwrite the existing attribute or
append a new one. -/
def setAttr (m : AttrMap) (name value : String) : AttrMap :=
  if hasAttr m name then
    m.map (fun p => if p.1 == name then (name, value) else p)
  else m ++ [(name, value)]

/-- `removeAttribute(name)`. -/
def removeAttr (m : AttrMap) (name : String) : AttrMap :=
  m.filter (fun p => p.1 != name)

theorem find?_map_replace (m : AttrMap) (n v : String) :
    (m.map (fun q => if q.1 == n then (n, v) else q)).find? (fun q => q.1 == n)
      = if (m.find? (fun q => q.1 == n)).isSome then some (n, v) else none := by
  induction m with
  | nil => simp
  | cons q rest ih =>
    rw [List.map_cons]
    by_cases hq : q.1 = n
    · have hh : (if q.1 == n then (n, v) else q) = (n, v) := by simp [hq]
      rw [hh,
        List.find?_cons_of_pos (p := fun r : String × String => r.1 == n) _ (by simp),
        List.find?_cons_of_pos (p := fun r : String × String => r.1 == n) _ (by simp [hq])]
      rfl
    · have hh : (if q.1 == n then (n, v) else q) = q := by simp [hq]
      rw [hh,
        List.find?_cons_of_neg (p := fun r : String × String => r.1 == n) _ (by simp [hq]),
        List.find?_cons_of_neg (p := fun r : String × String => r.1 == n) _ (by simp [hq])]
      exact ih

theorem getAttr_setAttr (m : AttrMap) (n v : String) :
    getAttr (setAttr m n v) n = some v := by
  by_cases h : hasAttr m n = true
  · rw [setAttr, if_pos h]
    rw [hasAttr] at h
    have hsome : (m.find? (fun q => q.1 == n)).isSome = true := by
      rw [getAttr] at h
      match hf : m.find? (fun q => q.1 == n) with
      | none => rw [hf] at h; simp at h
      | some q => rw [hf]; rfl
    rw [getAttr, find?_map_replace, if_pos hsome]
    rfl
  · rw [setAttr, if_neg h]
    have hnone : m.find? (fun q => q.1 == n) = none := by
      rw [hasAttr, getAttr] at h
      match hf : m.find? (fun q => q.1 == n) with
      | none => exact hf
      | some q => rw [hf] at h; simp at h
    rw [getAttr, List.find?_append, hnone]
    rw [List.find?_cons_of_pos (p := fun r : String × String => r.1 == n) _ (by simp)]
    rfl

theorem hasAttr_removeAttr (m : AttrMap) (n : String) :
    hasAttr (removeAttr m n) n = false := by
  rw [hasAttr, getAttr]
  have hnone : (removeAttr m n).find? (fun p => p.1 == n) = none := by
    rw [List.find?_eq_none]
    intro p hp
    have hmem := List.of_mem_filter hp
    simp only [bne_iff_ne, ne_eq] at hmem
    simpa using hmem
  rw [hnone]
  rfl

/-! ### `_reflectAttribute`
(src/coral-base-component/src/scripts/BaseComponent.js) -/

/-- `_reflectAttribute(attributeName, value)`: boolean values toggle the
attribute's presence (adding it with the empty string), any other value
is written through `String(value)` when the attribute differs.  The
`_reflectedAttribute` re-entrancy flag has no effect on the resulting
attributes and is not modelled. -/
def reflectAttribute (m : AttrMap) (name : String) (v : JSVal) : AttrMap :=
  match v with
  | .vBool b =>
    if b && !(hasAttr m name) then setAttr m name ""
    else if !b && hasAttr m name then removeAttr m name
    else m
  | _ =>
    if getAttr m name ≠ some v.toStringJS then setAttr m name v.toStringJS
    else m

/-- Claim C2: after `_reflectAttribute(attributeName, value)`, a boolean
value leaves the attribute present if and only if the value is true
(newly added as the empty string), and any non-boolean value leaves
`getAttribute(attributeName)` equal to `String(value)`. -/
theorem reflectAttribute_correct (m : AttrMap) (name : String) (v : JSVal) :
    (∀ b, v = .vBool b →
      hasAttr (reflectAttribute m name v) name = b ∧
      (b = true → hasAttr m name = false →
        getAttr (reflectAttribute m name v) name = some "")) ∧
    ((∀ b, v ≠ .vBool b) →
      getAttr (reflectAttribute m name v) name = some v.toStringJS) := by
  constructor
  · rintro b rfl
    cases b with
    | true =>
      by_cases h : hasAttr m name = true
      · simp [reflectAttribute, h]
      · have h2 : hasAttr m name = false := by simpa using h
        have hset : reflectAttribute m name (.vBool true) = setAttr m name "" := by
          simp [reflectAttribute, h2]
        rw [hset]
        refine ⟨?_, fun _ _ => getAttr_setAttr m name ""⟩
        rw [hasAttr, getAttr_setAttr]
        rfl
    | false =>
      by_cases h : hasAttr m name = true
      · simp [reflectAttribute, h, hasAttr_removeAttr]
      · have h2 : hasAttr m name = false := by simpa using h
        simp [reflectAttribute, h2]
  · intro hnb
    have hv : reflectAttribute m name v =
        (if getAttr m name ≠ some v.toStringJS then setAttr m name v.toStringJS
         else m) := by
      cases v with
      | vBool b => exact absurd rfl (hnb b)
      | vStr s => rfl
      | vNum n => rfl
      | vNull => rfl
      | vUndefined => rfl
    rw [hv]
    by_cases h : getAttr m name = some v.toStringJS
    · simp [h]
    · simp [h, getAttr_setAttr]

/-- Witness for C2: the boolean branch at an element without the
attribute and the string branch at an empty element. -/
theorem reflectAttribute_correct_witness :
    (hasAttr (reflectAttribute [] "open" (.vBool true)) "open" = true ∧
      getAttr (reflectAttribute [] "open" (.vBool true)) "open" = some "") ∧
    getAttr (reflectAttribute [] "variant" (.vStr "cta")) "variant" = some "cta" := by
  have h1 := (reflectAttribute_correct [] "open" (.vBool true)).1 true rfl
  have h2 := (reflectAttribute_correct [] "variant" (.vStr "cta")).2
    (by intro b h; cases h)
  exact ⟨⟨h1.1, h1.2 rfl rfl⟩, h2⟩

/-! ### `hideEverythingBut` / `showEverything`
(src/coral-base-overlay/src/scripts/BaseOverlay.js) -/

/-- JS truthiness of a nullable string (null and the empty string are
falsy). -/
def strTruthy : Option String → Bool
  | some s => s ≠ ""
  | none => false

/-- An immediate child of `document.body`: its identity, attributes, the
`_previousAriaHidden` expando property, and whether it contains the
overlay instance. -/
structure ChildEl where
  id : Nat
  attrs : AttrMap
  prevAriaHidden : Option String
  containsInst : Bool
deriving DecidableEq, Repr

/-- The loop body of `hideEverythingBut` for one child: children other
than the instance that do not contain it store a previous aria-hidden
value and get aria-hidden set to true (skipping the set when it is
already true). -/
def hideChild (instId : Nat) (c : ChildEl) : ChildEl :=
  if c.id ≠ instId ∧ c.containsInst = false then
    let cur := getAttr c.attrs "aria-hidden"
    if strTruthy cur then
      let prev := if strTruthy c.prevAriaHidden then c.prevAriaHidden else cur
      if cur = some "true" then { c with prevAriaHidden := prev }
      else { c with prevAriaHidden := prev,
                    attrs := setAttr c.attrs "aria-hidden" "true" }
    else
      { c with prevAriaHidden := some "false",
               attrs := setAttr c.attrs "aria-hidden" "true" }
  else c

/-- `hideEverythingBut(instance)`: process every immediate child of the
body, then set aria-hidden to false on the instance itself. -/
def hideEverythingBut (instId : Nat) (children : List ChildEl) : List ChildEl :=
  (children.map (hideChild instId)).map
    (fun c => if c.id = instId then
        { c with attrs := setAttr c.attrs "aria-hidden" "false" }
      else c)

/-- JS `child._previousAriaHidden || 'false'`. -/
def prevOrFalse : Option String → String
  | some p => if p = "" then "false" else p
  | none => "false"

/-- `showEverything()`: restore every immediate child's aria-hidden from
its `_previousAriaHidden`, defaulting to false. -/
def showEverything (children : List ChildEl) : List ChildEl :=
  children.map (fun c =>
    { c with attrs := setAttr c.attrs "aria-hidden" (prevOrFalse c.prevAriaHidden) })

/-- The previous-value record `hideEverythingBut` computes for a child it
hides: the observed aria-hidden when present and non-empty (unless a
non-empty value is already stored), false when absent or empty. -/
def storedPrev (c : ChildEl) : Option String :=
  if strTruthy (getAttr c.attrs "aria-hidden") then
    if strTruthy c.prevAriaHidden then c.prevAriaHidden
    else getAttr c.attrs "aria-hidden"
  else some "false"

theorem hideChild_id (instId : Nat) (c : ChildEl) :
    (hideChild instId c).id = c.id := by
  rw [hideChild]
  dsimp only
  split_ifs <;> rfl

theorem hideChild_spec (instId : Nat) (c : ChildEl)
    (h1 : c.id ≠ instId) (h2 : c.containsInst = false) :
    getAttr (hideChild instId c).attrs "aria-hidden" = some "true" ∧
    (hideChild instId c).prevAriaHidden = storedPrev c := by
  rw [hideChild, if_pos ⟨h1, h2⟩]
  dsimp only
  split_ifs with ht hprev heq <;>
    refine ⟨?_, ?_⟩ <;>
    simp_all [storedPrev, getAttr_setAttr]

theorem length_hideEverythingBut (instId : Nat) (children : List ChildEl) :
    (hideEverythingBut instId children).length = children.length := by
  simp [hideEverythingBut]

theorem length_showEverything (children : List ChildEl) :
    (showEverything children).length = children.length := by
  simp [showEverything]

/-- Claim C7 (amended): for every immediate child that neither is the
overlay instance nor contains it, `hideEverythingBut(instance)` sets its
aria-hidden attribute to true after storing the previously observed
aria-hidden value (recording false when the attribute was absent or
empty, and keeping a non-empty value stored by an earlier call); it sets
aria-hidden to false on the instance itself, and a subsequent
`showEverything()` sets every immediate child's aria-hidden back to that
stored previous value (defaulting to false). -/
theorem aria_hidden_toggle (instId : Nat) (children : List ChildEl) (k : Nat)
    (hk : k < children.length) :
    ((children.get ⟨k, hk⟩).id ≠ instId →
      (children.get ⟨k, hk⟩).containsInst = false →
      getAttr ((hideEverythingBut instId children).get
          ⟨k, by rw [length_hideEverythingBut]; exact hk⟩).attrs "aria-hidden" =
        some "true" ∧
      ((hideEverythingBut instId children).get
          ⟨k, by rw [length_hideEverythingBut]; exact hk⟩).prevAriaHidden =
        storedPrev (children.get ⟨k, hk⟩)) ∧
    ((children.get ⟨k, hk⟩).id = instId →
      getAttr ((hideEverythingBut instId children).get
          ⟨k, by rw [length_hideEverythingBut]; exact hk⟩).attrs "aria-hidden" =
        some "false") ∧
    (∀ (l : List ChildEl) (j : Nat) (hj : j < l.length),
      getAttr ((showEverything l).get
          ⟨j, by rw [length_showEverything]; exact hj⟩).attrs "aria-hidden" =
        some (prevOrFalse ((l.get ⟨j, hj⟩).prevAriaHidden))) := by
  have hgetHide : (hideEverythingBut instId children).get
      ⟨k, by rw [length_hideEverythingBut]; exact hk⟩ =
      (fun c => if c.id = instId then
          { c with attrs := setAttr c.attrs "aria-hidden" "false" }
        else c) (hideChild instId (children.get ⟨k, hk⟩)) := by
    simp [hideEverythingBut, List.get_eq_getElem, List.getElem_map]
  refine ⟨?_, ?_, ?_⟩
  · intro h1 h2
    have hspec := hideChild_spec instId (children.get ⟨k, hk⟩) h1 h2
    have hid : (hideChild instId (children.get ⟨k, hk⟩)).id ≠ instId := by
      rw [hideChild_id]; exact h1
    rw [hgetHide]
    simp only [if_neg hid]
    exact hspec
  · intro h1
    have hid : (hideChild instId (children.get ⟨k, hk⟩)).id = instId := by
      rw [hideChild_id]; exact h1
    rw [hgetHide]
    simp only [if_pos hid]
    exact getAttr_setAttr _ _ _
  · intro l j hj
    have hgetShow : (showEverything l).get ⟨j, by rw [length_showEverything]; exact hj⟩ =
        { l.get ⟨j, hj⟩ with
          attrs := setAttr (l.get ⟨j, hj⟩).attrs "aria-hidden"
            (prevOrFalse ((l.get ⟨j, hj⟩).prevAriaHidden)) } := by
      simp [showEverything, List.get_eq_getElem, List.getElem_map]
    rw [hgetShow]
    exact getAttr_setAttr _ _ _

/-- Claim C7, counterexample to the claim as stated: a child carrying
`aria-hidden=""` (present but empty, hence not absent) has `'false'`
recorded as its previous value instead of the observed empty string, and
`showEverything` restores `'false'`, not the observed value. -/
theorem aria_hidden_counterexample :
    getAttr ([("aria-hidden", "")] : AttrMap) "aria-hidden" = some "" ∧
    ((hideEverythingBut 0
        [⟨0, [], none, false⟩, ⟨1, [("aria-hidden", "")], none, false⟩]).get
      ⟨1, by decide⟩).prevAriaHidden = some "false" ∧
    (some "false" : Option String) ≠ some "" ∧
    getAttr ((showEverything (hideEverythingBut 0
        [⟨0, [], none, false⟩, ⟨1, [("aria-hidden", "")], none, false⟩])).get
      ⟨1, by decide⟩).attrs "aria-hidden" = some "false" := by
  refine ⟨by decide, by decide, by decide, by decide⟩

/-- Witness for C7: the theorem applied to a concrete body with the
instance and one sibling. -/
theorem aria_hidden_toggle_witness :
    getAttr ((hideEverythingBut 0
        [⟨0, [], none, false⟩, ⟨1, [], none, false⟩]).get
      ⟨1, by decide⟩).attrs "aria-hidden" = some "true" ∧
    getAttr ((hideEverythingBut 0
        [⟨0, [], none, false⟩, ⟨1, [], none, false⟩]).get
      ⟨0, by decide⟩).attrs "aria-hidden" = some "false" ∧
    getAttr ((showEverything [(⟨1, [], some "x", false⟩ : ChildEl)]).get
      ⟨0, by decide⟩).attrs "aria-hidden" = some "x" := by
  have h := aria_hidden_toggle 0
    [⟨0, [], none, false⟩, ⟨1, [], none, false⟩] 1 (by decide)
  have h0 := aria_hidden_toggle 0
    [⟨0, [], none, false⟩, ⟨1, [], none, false⟩] 0 (by decide)
  refine ⟨(h.1 (by decide) (by decide)).1, h0.2.1 (by decide), ?_⟩
  have hs := h.2.2 [(⟨1, [], some "x", false⟩ : ChildEl)] 0 (by decide)
  simpa using hs

/-! ### Global event delegation
(src/coral-base-component/src/scripts/BaseComponent.js)

`delegateEvents` stores `global:` listeners in `_globalEvents` /
`_globalKeys`; `delegateGlobalEvents` attaches them to the window-level
`events` util and the component's `Keys` instance, and
`undelegateGlobalEvents` removes them again.  Listener functions are
modelled by numeric identities. -/

/-- An entry of `_globalEvents`. -/
structure GlobalListener where
  eventName : String
  selector : Option String
  listenerId : Nat
  isCapture : Bool
deriving DecidableEq, Repr

/-- An entry of `_globalKeys`. -/
structure GlobalKey where
  keyCombo : String
  selector : Option String
  listenerId : Nat
deriving DecidableEq, Repr

/-- The component's `_keys` Keys instance: its attached key listeners
and whether it is initialised.  `init(true)` marks it alive,
`destroy(true)` marks it destroyed (modelled from the spec: the Keys
class lives in coral-utils, which is not part of these sources; its
`on`/`off` add and remove individual listeners). -/
structure KeysState where
  listeners : List GlobalKey
  alive : Bool
deriving DecidableEq, Repr

/-- The component-side state used by the lifecycle callbacks. -/
structure ComponentEvents where
  globalEvents : List GlobalListener
  globalKeys : List GlobalKey
  keys : Option KeysState
  disconnected : Option Bool
deriving DecidableEq, Repr

/-- Remove each listener of `l` from the registry `w`, as the `off`
loops of `undelegateGlobalEvents` do. -/
def removeAll {α : Type} [DecidableEq α] (w l : List α) : List α :=
  l.foldl (fun acc x => acc.filter (fun y => y ≠ x)) w

/-- `delegateGlobalEvents()`: attach every recorded global event
listener to the window `events` util, every recorded key combo to the
component's Keys instance, and initialise that instance.  (The source
would throw when `_globalKeys` exists without a Keys instance; such
states do not arise because `delegateEvents` creates the instance.) -/
def delegateGlobalEventsFn (c : ComponentEvents) (w : List GlobalListener) :
    ComponentEvents × List GlobalListener :=
  let w2 := w ++ c.globalEvents
  let keys2 := match c.keys with
    | some k => some { listeners := k.listeners ++ c.globalKeys, alive := true }
    | none => none
  ({ c with keys := keys2 }, w2)

/-- `undelegateGlobalEvents()`: remove every recorded global event and
key listener and destroy the Keys instance. -/
def undelegateGlobalEventsFn (c : ComponentEvents) (w : List GlobalListener) :
    ComponentEvents × List GlobalListener :=
  let w2 := removeAll w c.globalEvents
  let keys2 := match c.keys with
    | some k => some { listeners := removeAll k.listeners c.globalKeys, alive := false }
    | none => none
  ({ c with keys := keys2 }, w2)

/-- `connectedCallback()`: a component that is reattached responds to
global events again (`_disconnected` is only truthy when it is `true`). -/
def connectedCallbackFn (c : ComponentEvents) (w : List GlobalListener) :
    ComponentEvents × List GlobalListener :=
  let p := if c.disconnected = some true then delegateGlobalEventsFn c w else (c, w)
  ({ p.1 with disconnected := some false }, p.2)

/-- `disconnectedCallback()`: mark disconnected, then undelegate. -/
def disconnectedCallbackFn (c : ComponentEvents) (w : List GlobalListener) :
    ComponentEvents × List GlobalListener :=
  undelegateGlobalEventsFn { c with disconnected := some true } w

theorem mem_removeAll {α : Type} [DecidableEq α] (w l : List α) (x : α)
    (h : x ∈ removeAll w l) : x ∈ w := by
  induction l generalizing w with
  | nil => exact h
  | cons a rest ih =>
    have := ih (w.filter (fun y => y ≠ a)) h
    exact List.mem_of_mem_filter this

theorem removeAll_not_mem {α : Type} [DecidableEq α] (w l : List α) (x : α)
    (h : x ∈ l) : x ∉ removeAll w l := by
  induction l generalizing w with
  | nil => simp at h
  | cons a rest ih =>
    rcases List.mem_cons.mp h with rfl | hmem
    · intro hc
      have hin : x ∈ w.filter (fun y => y ≠ x) := mem_removeAll _ _ _ hc
      have := List.of_mem_filter hin
      simp at this
    · exact ih _ hmem

theorem count_removeAll_eq_zero {α : Type} [DecidableEq α] (w l : List α) (x : α)
    (h : x ∈ l) : (removeAll w l).count x = 0 :=
  List.count_eq_zero.mpr (removeAll_not_mem w l x h)

/-- Claim C8: after `disconnectedCallback` every listener recorded in
`_globalEvents` and `_globalKeys` has been removed and the Keys instance
destroyed; after a subsequent `connectedCallback` on the previously
disconnected component exactly the recorded listeners are attached again
and the Keys instance reinitialised. -/
theorem global_listener_lifecycle (c : ComponentEvents) (w : List GlobalListener) :
    (∀ e ∈ c.globalEvents, e ∉ (disconnectedCallbackFn c w).2) ∧
    (∀ g ∈ c.globalKeys, ∀ k, (disconnectedCallbackFn c w).1.keys = some k →
      g ∉ k.listeners) ∧
    (∀ k, (disconnectedCallbackFn c w).1.keys = some k → k.alive = false) ∧
    (∀ e ∈ c.globalEvents,
      ((connectedCallbackFn (disconnectedCallbackFn c w).1
          (disconnectedCallbackFn c w).2).2.count e) = c.globalEvents.count e) ∧
    (∀ g ∈ c.globalKeys, ∀ k0, c.keys = some k0 →
      ∀ k, (connectedCallbackFn (disconnectedCallbackFn c w).1
          (disconnectedCallbackFn c w).2).1.keys = some k →
        k.listeners.count g = c.globalKeys.count g) ∧
    (∀ k0, c.keys = some k0 →
      ∃ k, (connectedCallbackFn (disconnectedCallbackFn c w).1
          (disconnectedCallbackFn c w).2).1.keys = some k ∧ k.alive = true) := by
  obtain ⟨ge, gk, keys0, disc0⟩ := c
  refine ⟨?_, ?_, ?_, ?_, ?_, ?_⟩
  · intro e he
    exact removeAll_not_mem w ge e he
  · intro g hg k hk
    match keys0, hk with
    | some k0, hk =>
      simp only [disconnectedCallbackFn, undelegateGlobalEventsFn,
        Option.some.injEq] at hk
      rw [← hk]
      exact removeAll_not_mem k0.listeners gk g hg
  · intro k hk
    match keys0, hk with
    | some k0, hk =>
      simp only [disconnectedCallbackFn, undelegateGlobalEventsFn,
        Option.some.injEq] at hk
      rw [← hk]
  · intro e he
    have hstep : (connectedCallbackFn (disconnectedCallbackFn
        ⟨ge, gk, keys0, disc0⟩ w).1 (disconnectedCallbackFn
        ⟨ge, gk, keys0, disc0⟩ w).2).2 = removeAll w ge ++ ge := by
      simp [disconnectedCallbackFn, undelegateGlobalEventsFn,
        connectedCallbackFn, delegateGlobalEventsFn]
    rw [hstep, List.count_append, count_removeAll_eq_zero w ge e he,
      Nat.zero_add]
  · intro g hg k0 hk0 k hk
    match keys0, hk0 with
    | some k1, hk0 =>
      have hk1 : k1 = k0 := by simpa using hk0
      subst hk1
      have hstate : (connectedCallbackFn (disconnectedCallbackFn
          ⟨ge, gk, some k1, disc0⟩ w).1 (disconnectedCallbackFn
          ⟨ge, gk, some k1, disc0⟩ w).2).1.keys =
          some ⟨removeAll k1.listeners gk ++ gk, true⟩ := by
        simp [disconnectedCallbackFn, undelegateGlobalEventsFn,
          connectedCallbackFn, delegateGlobalEventsFn]
      rw [hstate] at hk
      have hkk : (⟨removeAll k1.listeners gk ++ gk, true⟩ : KeysState) = k := by
        simpa using hk
      rw [← hkk]
      simp only [List.count_append]
      have hg2 : g ∈ gk := by simpa using hg
      rw [count_removeAll_eq_zero k1.listeners gk g hg2, Nat.zero_add]
  · intro k0 hk0
    match keys0, hk0 with
    | some k1, _ =>
      refine ⟨⟨removeAll k1.listeners gk ++ gk, true⟩, ?_, rfl⟩
      simp [disconnectedCallbackFn, undelegateGlobalEventsFn,
        connectedCallbackFn, delegateGlobalEventsFn]

/-- Witness for C8: a component with one recorded global event listener
and one recorded key combo. -/
theorem global_listener_lifecycle_witness :
    (⟨"resize", none, 7, false⟩ : GlobalListener) ∉
      (disconnectedCallbackFn
        ⟨[⟨"resize", none, 7, false⟩], [⟨"ctrl+a", none, 8⟩],
          some ⟨[⟨"ctrl+a", none, 8⟩], true⟩, some false⟩
        [⟨"resize", none, 7, false⟩]).2 ∧
    ((connectedCallbackFn
        (disconnectedCallbackFn
          ⟨[⟨"resize", none, 7, false⟩], [⟨"ctrl+a", none, 8⟩],
            some ⟨[⟨"ctrl+a", none, 8⟩], true⟩, some false⟩
          [⟨"resize", none, 7, false⟩]).1
        (disconnectedCallbackFn
          ⟨[⟨"resize", none, 7, false⟩], [⟨"ctrl+a", none, 8⟩],
            some ⟨[⟨"ctrl+a", none, 8⟩], true⟩, some false⟩
          [⟨"resize", none, 7, false⟩]).2).2.count
      (⟨"resize", none, 7, false⟩ : GlobalListener)) = 1 ∧
    ((⟨[⟨"ctrl+a", none, 8⟩], true⟩ : KeysState).listeners.count
      (⟨"ctrl+a", none, 8⟩ : GlobalKey)) = 1 := by
  have h := global_listener_lifecycle
    ⟨[⟨"resize", none, 7, false⟩], [⟨"ctrl+a", none, 8⟩],
      some ⟨[⟨"ctrl+a", none, 8⟩], true⟩, some false⟩
    [⟨"resize", none, 7, false⟩]
  refine ⟨h.1 _ (by simp), ?_, ?_⟩
  · have hc := h.2.2.2.1 ⟨"resize", none, 7, false⟩ (by simp)
    simpa using hc
  · have hk := h.2.2.2.2.1 ⟨"ctrl+a", none, 8⟩ (by simp)
      ⟨[⟨"ctrl+a", none, 8⟩], true⟩ rfl
      ⟨[⟨"ctrl+a", none, 8⟩], true⟩ (by decide)
    exact hk.trans (by decide)

/-! ### `_setContentZone`
(src/coral-base-component/src/scripts/BaseComponent.js) -/

/-- JS `toLowerCase()` on the ASCII strings used by the library. -/
def toLowerStr (s : String) : String := String.mk (s.data.map Char.toLower)

/-- JS `toUpperCase()` on the ASCII strings used by the library. -/
def toUpperStr (s : String) : String := String.mk (s.data.map Char.toUpper)

/-- A value passed to a content-zone setter: an HTMLElement (with its
DOM `tagName` and an identity) or any other JS value. -/
inductive CZVal where
  | elem (tagName : String) (id : Nat)
  | prim (v : JSVal)
deriving DecidableEq, Repr

/-- JS truthiness of a content-zone value (elements are objects, hence
truthy). -/
def CZVal.truthy : CZVal → Bool
  | .elem _ _ => true
  | .prim v => v.truthy

/-- `value instanceof HTMLElement`. -/
def CZVal.isElem : CZVal → Bool
  | .elem _ _ => true
  | .prim _ => false

/-- The component state `_setContentZone` can modify: the `_elements`
map (handle to stored value) and the component's DOM children, by
element identity. -/
structure CZState where
  elements : List (String × CZVal)
  children : List Nat
deriving DecidableEq, Repr

/-- The options of `_setContentZone`: the handle, the expected
(lower-case) tag name, the component's `insert` callback, and the
additional `set` callback. -/
structure CZOptions where
  handle : String
  tagName : Option String
  insert : Option (List Nat → Nat → List Nat)
  setCb : Option (CZState → CZVal → CZState)

/-- `elements[handle] = value`. -/
def setHandle (es : List (String × CZVal)) (h : String) (v : CZVal) :
    List (String × CZVal) :=
  if (es.find? (fun p => p.1 == h)).isSome then
    es.map (fun p => if p.1 == h then (h, v) else p)
  else es ++ [(h, v)]

/-- `elements[handle]`, undefined (`none`) when never assigned. -/
def getHandle (es : List (String × CZVal)) (h : String) : Option CZVal :=
  (es.find? (fun p => p.1 == h)).map (fun p => p.2)

/-- `_setContentZone(property, value, options)`.  Throws (returning an
error message and the untouched state) when a truthy value is not an
HTMLElement or its tag name differs from `options.tagName`; otherwise
removes the old node, inserts the new one (via `options.insert`, with
the replace/append fallbacks), re-assigns the handle and invokes the
additional setter.  A falsy value removes the existing content zone. -/
def setContentZone (st : CZState) (value : CZVal) (opts : CZOptions) :
    Option String × CZState :=
  if value.truthy then
    if value.isElem = false then
      (some "The provided value is not of type HTMLElement.", st)
    else
      let tagOk := match opts.tagName, value with
        | some t, .elem tag _ => toLowerStr tag == t
        | _, _ => true
      if tagOk = false then
        (some "The new element is of the wrong type.", st)
      else
        let oldNode := getHandle st.elements opts.handle
        let vid := match value with | .elem _ i => i | .prim _ => 0
        let children2 := match opts.insert with
          | some ins =>
            let children1 := match oldNode with
              | some (.elem _ oid) =>
                if oid ∈ st.children then st.children.filter (fun c => c ≠ oid)
                else st.children
              | _ => st.children
            ins children1 vid
          | none =>
            match oldNode with
            | some (.elem _ oid) =>
              if oid ∈ st.children then
                st.children.map (fun c => if c = oid then vid else c)
              else st.children ++ [vid]
            | _ => st.children ++ [vid]
        let mid : CZState :=
          { elements := setHandle st.elements opts.handle value
            children := children2 }
        (none, match opts.setCb with
          | some f => f mid value
          | none => mid)
  else
    let oldNode := getHandle st.elements opts.handle
    let children1 := match oldNode with
      | some (.elem _ oid) =>
        if oid ∈ st.children then st.children.filter (fun c => c ≠ oid)
        else st.children
      | _ => st.children
    let mid : CZState :=
      { elements := setHandle st.elements opts.handle value
        children := children1 }
    (none, match opts.setCb with
      | some f => f mid value
      | none => mid)

/-- Claim C5: `_setContentZone` throws when a truthy value is not an
HTMLElement, and when `options.tagName` is given and the value's
lower-cased tag name differs from it; in both error cases the
`_elements[handle]` entry and the DOM children are unchanged (the throw
happens before any mutation). -/
theorem setContentZone_error_cases (st : CZState) (value : CZVal)
    (opts : CZOptions) :
    (value.truthy = true → value.isElem = false →
      (setContentZone st value opts).1.isSome = true ∧
      (setContentZone st value opts).2 = st) ∧
    (∀ tag vid t, value = .elem tag vid → opts.tagName = some t →
      toLowerStr tag ≠ t →
      (setContentZone st value opts).1.isSome = true ∧
      (setContentZone st value opts).2 = st) := by
  constructor
  · intro ht hne
    simp [setContentZone, ht, hne]
  · rintro tag vid t rfl hopt hneq
    have hbeq : (toLowerStr tag == t) = false := by
      rw [beq_eq_false_iff_ne]
      exact hneq
    simp [setContentZone, CZVal.truthy, CZVal.isElem, hopt, hbeq]

/-- Witness for C5: a truthy non-element value and a mismatched tag
name, both on a concrete component state. -/
theorem setContentZone_error_cases_witness :
    ((setContentZone ⟨[("label", .elem "CORAL-BUTTON-LABEL" 1)], [1]⟩
        (.prim (.vStr "oops"))
        ⟨"label", some "coral-button-label", none, none⟩).1.isSome = true ∧
      (setContentZone ⟨[("label", .elem "CORAL-BUTTON-LABEL" 1)], [1]⟩
        (.prim (.vStr "oops"))
        ⟨"label", some "coral-button-label", none, none⟩).2 =
        ⟨[("label", .elem "CORAL-BUTTON-LABEL" 1)], [1]⟩) ∧
    ((setContentZone ⟨[("label", .elem "CORAL-BUTTON-LABEL" 1)], [1]⟩
        (.elem "DIV" 2)
        ⟨"label", some "coral-button-label", none, none⟩).1.isSome = true ∧
      (setContentZone ⟨[("label", .elem "CORAL-BUTTON-LABEL" 1)], [1]⟩
        (.elem "DIV" 2)
        ⟨"label", some "coral-button-label", none, none⟩).2 =
        ⟨[("label", .elem "CORAL-BUTTON-LABEL" 1)], [1]⟩) := by
  constructor
  · exact (setContentZone_error_cases _ _ _).1 (by decide) (by decide)
  · exact (setContentZone_error_cases _ _ _).2 "DIV" 2 "coral-button-label"
      rfl rfl (by decide)

/-! ### Mixin layering and the QuickActionsItem Messenger
(src/coral-base-button/src/scripts/BaseButton.js,
src/coral-component-quickactions/src/scripts/QuickActionsItem.js) -/

/-- A class as its chain of mixin layers, outermost first, ending at the
host-provided HTMLElement base. -/
abbrev ClassChain := List String

/-- The browser's HTMLElement base class. -/
def HTMLElementBase : ClassChain := ["HTMLElement"]

/-- The `BaseComponent(superClass)` mixin. -/
def BaseComponentMixin (c : ClassChain) : ClassChain := "BaseComponent" :: c

/-- The `BaseLabellable(superClass)` mixin. -/
def BaseLabellableMixin (c : ClassChain) : ClassChain := "BaseLabellable" :: c

/-- `BaseButton = (superClass) => class extends
BaseLabellable(superClass)`. -/
def BaseButtonMixin (c : ClassChain) : ClassChain :=
  "BaseButton" :: BaseLabellableMixin c

/-- The `Decorator(superClass)` wrapper from coral-decorator. -/
def DecoratorMixin (c : ClassChain) : ClassChain := "Decorator" :: c

/-- `QuickActionsItem = Decorator(class extends
BaseComponent(HTMLElement))`. -/
def QuickActionsItemChain : ClassChain :=
  DecoratorMixin ("QuickActionsItem" :: BaseComponentMixin HTMLElementBase)

/-- Modelled from the spec: coral-utils `transform.string` (used by the
QuickActionsItem setters, not part of these sources) is the JS String
coercion with null and undefined mapped to the empty string. -/
def transformString : JSVal → String
  | .vNull => ""
  | .vUndefined => ""
  | v => v.toStringJS

/-- Modelled from the spec: coral-utils `validate.valueMustChange(old,
new)` (not part of these sources) holds when the new value differs from
the existing one, per the `_updateProperty` doc comment in
BaseComponent. -/
def valueMustChange (o : Option String) (n : String) : Bool := o ≠ some n

/-- A QuickActionsItem's state relevant to its `href` setter: the
internal `_href`, the reflected attributes, and the Messenger messages
it has posted. -/
structure QAItemState where
  href : Option String
  attrs : AttrMap
  posted : List String
deriving DecidableEq, Repr

/-- The `set href(value)` accessor of QuickActionsItem: transform the
value, and when it changed store it, reflect the attribute, and post
`coral-quickactions-item:_hrefchanged` through the Messenger. -/
def setHref (v : JSVal) (st : QAItemState) : QAItemState :=
  let s := transformString v
  if valueMustChange st.href s then
    { href := some s
      attrs := reflectAttribute st.attrs "href" (.vStr s)
      posted := st.posted ++ ["coral-quickactions-item:_hrefchanged"] }
  else st

/-- Claim C6, counterexample to the claim as stated: QuickActionsItem
does communicate through message passing — its href setter posts a
Messenger message. -/
theorem quickactions_messenger_counterexample :
    (setHref (.vStr "http://example.com") ⟨none, [], []⟩).posted =
      ["coral-quickactions-item:_hrefchanged"] ∧
    (setHref (.vStr "http://example.com") ⟨none, [], []⟩).posted ≠ [] := by
  exact ⟨rfl, by decide⟩

/-- Claim C6 (amended): component classes compose through class-mixin
layering over HTMLElement — `BaseButton(superClass)` extends
`BaseLabellable(superClass)` and QuickActionsItem is `Decorator` applied
to a class extending `BaseComponent(HTMLElement)` — but QuickActionsItem
does communicate through message passing: its href setter posts the
Messenger message `coral-quickactions-item:_hrefchanged` exactly when
the transformed value differs from the stored one. -/
theorem mixin_layering_and_messenger :
    (∀ c : ClassChain, BaseButtonMixin c = "BaseButton" :: BaseLabellableMixin c) ∧
    QuickActionsItemChain =
      ["Decorator", "QuickActionsItem", "BaseComponent", "HTMLElement"] ∧
    (∀ v st, valueMustChange st.href (transformString v) = true →
      (setHref v st).posted =
        st.posted ++ ["coral-quickactions-item:_hrefchanged"]) ∧
    (∀ v st, valueMustChange st.href (transformString v) = false →
      (setHref v st).posted = st.posted) := by
  refine ⟨fun c => rfl, rfl, ?_, ?_⟩
  · intro v st h
    rw [setHref]
    simp only [h, if_true]
  · intro v st h
    rw [setHref]
    simp only [h, Bool.false_eq_true, if_false]

/-- Witness for C6: the changed and unchanged branches of the href
setter at concrete inputs. -/
theorem mixin_layering_and_messenger_witness :
    (setHref (.vStr "a") ⟨none, [], []⟩).posted =
      [] ++ ["coral-quickactions-item:_hrefchanged"] ∧
    (setHref (.vStr "a") ⟨some "a", [], []⟩).posted = [] := by
  refine ⟨mixin_layering_and_messenger.2.2.1 (.vStr "a") ⟨none, [], []⟩ (by decide),
    mixin_layering_and_messenger.2.2.2 (.vStr "a") ⟨some "a", [], []⟩ (by decide)⟩

/-! ### Enumerated property setters
(BaseComponent.tracking, QuickActionsItem.type, BaseButton.variant,
BaseButton.size, BaseOverlay.trapFocus / returnFocus / scrollOnFocus)

Every setter follows the source pattern
`value = transform(value); value = validate.enumeration(E)(value) && value || E.DEFAULT;`. -/

/-- Modelled from the spec: coral-utils `transform.toLowerCase` (not
part of these sources) lower-cases strings and passes every other value
through. -/
def transformToLowerCase : JSVal → JSVal
  | .vStr s => .vStr (toLowerStr s)
  | v => v

/-- Modelled from the spec: coral-utils `transform.toUpperCase` (not
part of these sources), the upper-case counterpart. -/
def transformToUpperCase : JSVal → JSVal
  | .vStr s => .vStr (toUpperStr s)
  | v => v

/-- Modelled from the spec: coral-utils `validate.enumeration(enumObj)`
(not part of these sources) tests membership among the enumeration's
string values. -/
def validateEnumeration (members : List String) : JSVal → Bool
  | .vStr s => members.contains s
  | _ => false

/-- The shared setter expression
`validate.enumeration(E)(value) && value || E.DEFAULT`. -/
def enumClamp (members : List String) (dflt : String) (value : JSVal) : JSVal :=
  JSVal.jsOr (JSVal.jsAnd (.vBool (validateEnumeration members value)) value)
    (.vStr dflt)

/-- `TrackingEnum` values (BaseComponent). -/
def trackingValues : List String := ["on", "off"]

/-- `QuickActionsItemTypeEnum` values. -/
def qaTypeValues : List String := ["button", "anchor"]

/-- `ButtonVariantEnum` values (BaseButton). -/
def variantValues : List String :=
  ["cta", "primary", "secondary", "quiet", "minimal", "warning", "action",
   "quietaction", "quietsecondary", "quietwarning", "overbackground",
   "default", "_custom"]

/-- `ButtonSizeEnum` values (BaseButton). -/
def sizeValues : List String := ["M", "L"]

/-- Modelled from the spec: the trapFocus / returnFocus / scrollOnFocus
enumerations of coral-base-overlay's enums.js (not part of these
sources) have the values on and off, with documented defaults OFF, OFF
and ON. -/
def overlayToggleValues : List String := ["on", "off"]

/-- The transform of the QuickActionsItem type setter:
`transform.string(value).toLowerCase()`. -/
def preQAType (v : JSVal) : JSVal := .vStr (toLowerStr (transformString v))

/-- A getter of the form `this._x || DEFAULT`. -/
def enumGetSimple (dflt : String) (stored : Option JSVal) : JSVal :=
  JSVal.jsOr (match stored with | some x => x | none => .vUndefined) (.vStr dflt)

/-- The tracking getter
`this._tracking || this.getAttribute('tracking') || tracking.ON`. -/
def trackingGet (stored : Option JSVal) (attrs : AttrMap) : JSVal :=
  JSVal.jsOr
    (JSVal.jsOr (match stored with | some x => x | none => .vUndefined)
      (match getAttr attrs "tracking" with | some a => .vStr a | none => .vNull))
    (.vStr "on")

/-- What claim C9 asserts of one enumerated property with transform
`pre`: the getter applied to the setter's result yields an enumeration
member, any input failing the enumeration check is replaced by the
default, and a case-normalized member input is kept (case
normalization). -/
def EnumPropOK (pre : JSVal → JSVal) (members : List String) (dflt : String)
    (get : Option JSVal → JSVal) : Prop :=
  (∀ v, ∃ s ∈ members, get (some (enumClamp members dflt (pre v))) = .vStr s) ∧
  (∀ v, validateEnumeration members (pre v) = false →
    enumClamp members dflt (pre v) = .vStr dflt) ∧
  (∀ s m, pre (.vStr s) = .vStr m → m ∈ members →
    enumClamp members dflt (pre (.vStr s)) = .vStr m)

theorem enumClamp_of_validate_true (members : List String) (dflt : String)
    (hne : ∀ s ∈ members, s ≠ "") (v : JSVal)
    (h : validateEnumeration members v = true) :
    ∃ s ∈ members, v = .vStr s ∧ enumClamp members dflt v = .vStr s := by
  match v with
  | .vStr s =>
    have hs : s ∈ members := by
      rw [validateEnumeration] at h
      exact List.mem_of_elem_eq_true h
    have hsne := hne s hs
    refine ⟨s, hs, rfl, ?_⟩
    rw [enumClamp, JSVal.jsAnd]
    have ht : (JSVal.vBool (validateEnumeration members (.vStr s))).truthy = true := by
      rw [h]; rfl
    rw [if_pos ht, JSVal.jsOr]
    have hts : (JSVal.vStr s).truthy = true := by
      rw [JSVal.truthy]
      simpa using hsne
    rw [if_pos hts]
  | .vBool b => simp [validateEnumeration] at h
  | .vNum n => simp [validateEnumeration] at h
  | .vNull => simp [validateEnumeration] at h
  | .vUndefined => simp [validateEnumeration] at h

theorem enumClamp_of_validate_false (members : List String) (dflt : String)
    (v : JSVal) (h : validateEnumeration members v = false) :
    enumClamp members dflt v = .vStr dflt := by
  rw [enumClamp, JSVal.jsAnd]
  have ht : (JSVal.vBool (validateEnumeration members v)).truthy = false := by
    rw [h]; rfl
  rw [if_neg (by simp [ht]), JSVal.jsOr, if_neg (by simp [ht])]

theorem enumProp_generic (pre : JSVal → JSVal) (members : List String)
    (dflt : String) (get : Option JSVal → JSVal)
    (hne : ∀ s ∈ members, s ≠ "") (hd : dflt ∈ members)
    (hget : ∀ s, s ≠ "" → get (some (.vStr s)) = .vStr s) :
    EnumPropOK pre members dflt get := by
  refine ⟨?_, ?_, ?_⟩
  · intro v
    by_cases h : validateEnumeration members (pre v) = true
    · obtain ⟨s, hs, _, hc⟩ := enumClamp_of_validate_true members dflt hne (pre v) h
      exact ⟨s, hs, by rw [hc, hget s (hne s hs)]⟩
    · have hf := enumClamp_of_validate_false members dflt (pre v) (by simpa using h)
      exact ⟨dflt, hd, by rw [hf, hget dflt (hne dflt hd)]⟩
  · intro v h
    exact enumClamp_of_validate_false members dflt (pre v) h
  · intro s m hpre hm
    have hval : validateEnumeration members (pre (.vStr s)) = true := by
      rw [hpre, validateEnumeration]
      exact List.elem_eq_true_of_mem hm
    obtain ⟨s2, _, hv2, hc2⟩ := enumClamp_of_validate_true members dflt hne _ hval
    rw [hpre] at hv2
    have : m = s2 := by injection hv2
    rw [hc2, this]

/-- Claim C9: each enumerated property setter (BaseComponent.tracking,
QuickActionsItem.type, BaseButton.variant, BaseButton.size,
BaseOverlay.trapFocus, BaseOverlay.returnFocus,
BaseOverlay.scrollOnFocus) normalizes the case of its input, replaces
any value failing the enumeration check (including null and undefined)
by the documented default, and the corresponding getter then returns an
enumeration member. -/
theorem enum_setters_normalize :
    (∀ attrs, EnumPropOK transformToLowerCase trackingValues "on"
      (fun st => trackingGet st attrs)) ∧
    EnumPropOK preQAType qaTypeValues "button" (enumGetSimple "button") ∧
    EnumPropOK transformToLowerCase variantValues "default"
      (enumGetSimple "default") ∧
    EnumPropOK transformToUpperCase sizeValues "M" (enumGetSimple "M") ∧
    EnumPropOK transformToLowerCase overlayToggleValues "off"
      (enumGetSimple "off") ∧
    EnumPropOK transformToLowerCase overlayToggleValues "off"
      (enumGetSimple "off") ∧
    EnumPropOK transformToLowerCase overlayToggleValues "on"
      (enumGetSimple "on") := by
  have hgetSimple : ∀ dflt s, s ≠ "" →
      enumGetSimple dflt (some (.vStr s)) = .vStr s := by
    intro dflt s hs
    have hts : (JSVal.vStr s).truthy = true := by
      rw [JSVal.truthy]; simpa using hs
    simp [enumGetSimple, JSVal.jsOr, hts]
  refine ⟨?_, ?_, ?_, ?_, ?_, ?_, ?_⟩
  · intro attrs
    refine enumProp_generic _ _ _ _ (by decide) (by decide) ?_
    intro s hs
    have hts : (JSVal.vStr s).truthy = true := by
      rw [JSVal.truthy]; simpa using hs
    simp [trackingGet, JSVal.jsOr, hts]
  · exact enumProp_generic _ _ _ _ (by decide) (by decide)
      (hgetSimple "button")
  · exact enumProp_generic _ _ _ _ (by decide) (by decide)
      (hgetSimple "default")
  · exact enumProp_generic _ _ _ _ (by decide) (by decide) (hgetSimple "M")
  · exact enumProp_generic _ _ _ _ (by decide) (by decide) (hgetSimple "off")
  · exact enumProp_generic _ _ _ _ (by decide) (by decide) (hgetSimple "off")
  · exact enumProp_generic _ _ _ _ (by decide) (by decide) (hgetSimple "on")

/-- Witness for C9: case normalization, invalid-value and
null-replacement behaviour at concrete inputs. -/
theorem enum_setters_normalize_witness :
    enumClamp trackingValues "on" (transformToLowerCase (.vStr "OFF")) =
      .vStr "off" ∧
    enumClamp trackingValues "on" (transformToLowerCase .vNull) = .vStr "on" ∧
    enumClamp qaTypeValues "button" (preQAType .vUndefined) = .vStr "button" ∧
    enumClamp variantValues "default" (transformToLowerCase (.vStr "CTA")) =
      .vStr "cta" ∧
    enumClamp sizeValues "M" (transformToUpperCase (.vStr "l")) = .vStr "L" ∧
    enumClamp overlayToggleValues "off"
      (transformToLowerCase (.vStr "garbage")) = .vStr "off" := by
  have h := enum_setters_normalize
  refine ⟨(h.1 []).2.2 "OFF" "off" (by decide) (by decide),
    (h.1 []).2.1 .vNull (by decide),
    h.2.1.2.1 .vUndefined (by decide),
    h.2.2.1.2.2 "CTA" "cta" (by decide) (by decide),
    h.2.2.2.1.2.2 "l" "L" (by decide) (by decide),
    h.2.2.2.2.1.2.1 (.vStr "garbage") (by decide)⟩

/-! ### `Playground._compress` / `Playground._uncompress`
(src/coral-component-playground/src/scripts/Playground.js)

Strings are modelled as lists of UTF-16 code units.  `_compress` maps
the code to its char codes, deflates them (deflate-js, an external
dependency, is a parameter assumed to invert), and passes the resulting
JS array to `window.btoa`, which first coerces the array to its
comma-separated decimal string.  `_uncompress` runs `window.atob`,
splits on commas and feeds the decimal strings to rawinflate (which
coerces them back to numbers). -/

/-- The ASCII digit character of d. -/
def digitChar (d : Nat) : Char := Char.ofNat (48 + d)

/-- Little-endian decimal digits of `n`, with structural fuel. -/
def toDecRev (fuel n : Nat) : List Nat :=
  match fuel with
  | 0 => []
  | f + 1 => if n < 10 then [n] else n % 10 :: toDecRev f (n / 10)

/-- JS `String(n)` for a natural number, as a character list. -/
def decChars (n : Nat) : List Char :=
  ((toDecRev (n + 1) n).reverse).map digitChar

/-- JS number coercion of a decimal digit string. -/
def parseDec (cs : List Char) : Nat :=
  cs.foldl (fun a c => 10 * a + (c.toNat - 48)) 0

/-- The value of a little-endian digit list. -/
def ofDigitsLE (ds : List Nat) : Nat :=
  ds.foldr (fun d acc => d + 10 * acc) 0

/-- JS `Array.prototype.toString` / `join(',')` on a number array. -/
def joinComma : List (List Char) → List Char
  | [] => []
  | [x] => x
  | x :: y :: ys => x ++ ',' :: joinComma (y :: ys)

/-- JS `String.prototype.split(',')` (the empty string yields one empty
group). -/
def splitComma : List Char → List (List Char)
  | [] => [[]]
  | c :: rest =>
    if c = ',' then [] :: splitComma rest
    else
      match splitComma rest with
      | g :: gs => (c :: g) :: gs
      | [] => [[c]]

/-- `Playground._compress(code)`, with the external rawdeflate and the
browser `btoa` as parameters. -/
def compressFn (deflate : List Nat → List Nat) (btoa : List Char → List Char)
    (codes : List Nat) : List Char :=
  btoa (joinComma ((deflate codes).map decChars))

/-- `Playground._uncompress(base64)`, with the external rawinflate and
the browser `atob` as parameters. -/
def uncompressFn (inflate : List Nat → List Nat) (atob : List Char → List Char)
    (b64 : List Char) : List Nat :=
  inflate ((splitComma (atob b64)).map parseDec)

theorem toDecRev_spec : ∀ (fuel n : Nat), n < fuel →
    ofDigitsLE (toDecRev fuel n) = n ∧ ∀ d ∈ toDecRev fuel n, d < 10 := by
  intro fuel
  induction fuel with
  | zero => intro n h; omega
  | succ f ih =>
    intro n h
    rw [toDecRev]
    by_cases h10 : n < 10
    · rw [if_pos h10]
      refine ⟨rfl, ?_⟩
      intro d hd
      simp at hd
      omega
    · rw [if_neg h10]
      have hdiv : n / 10 < f := by
        have h1 : n / 10 < n := Nat.div_lt_self (by omega) (by omega)
        omega
      obtain ⟨ih1, ih2⟩ := ih (n / 10) hdiv
      constructor
      · have hcons : ofDigitsLE (n % 10 :: toDecRev f (n / 10)) =
            n % 10 + 10 * ofDigitsLE (toDecRev f (n / 10)) := rfl
        rw [hcons, ih1]
        omega
      · intro d hd
        rcases List.mem_cons.mp hd with rfl | hmem
        · exact Nat.mod_lt _ (by omega)
        · exact ih2 d hmem

theorem parseDec_revMap : ∀ (ds : List Nat), (∀ d ∈ ds, d < 10) →
    parseDec ((ds.reverse).map digitChar) = ofDigitsLE ds := by
  intro ds
  induction ds with
  | nil => intro _; rfl
  | cons d rest ih =>
    intro h
    have hd : d < 10 := h d (by simp)
    have htoNat : (digitChar d).toNat = 48 + d := by
      rw [digitChar]
      interval_cases d <;> decide
    rw [List.reverse_cons, List.map_append, parseDec, List.foldl_append]
    simp only [List.map_cons, List.map_nil, List.foldl_cons, List.foldl_nil]
    rw [htoNat]
    have hrest := ih (fun x hx => h x (List.mem_cons_of_mem _ hx))
    rw [parseDec] at hrest
    rw [hrest]
    have hcons : ofDigitsLE (d :: rest) = d + 10 * ofDigitsLE rest := rfl
    rw [hcons]
    omega

theorem parseDec_decChars (n : Nat) : parseDec (decChars n) = n := by
  obtain ⟨h1, h2⟩ := toDecRev_spec (n + 1) n (by omega)
  rw [decChars, parseDec_revMap _ h2, h1]

theorem decChars_ne_comma (n : Nat) : ∀ c ∈ decChars n, c ≠ ',' := by
  intro c hc
  rw [decChars] at hc
  obtain ⟨d, hd, rfl⟩ := List.mem_map.mp hc
  have hd2 : d < 10 :=
    (toDecRev_spec (n + 1) n (by omega)).2 d (List.mem_reverse.mp hd)
  rw [digitChar]
  interval_cases d <;> decide

theorem splitComma_ne_nil (cs : List Char) : splitComma cs ≠ [] := by
  induction cs with
  | nil => simp [splitComma]
  | cons c rest ih =>
    rw [splitComma]
    by_cases hc : c = ','
    · simp [hc]
    · rw [if_neg hc]
      match h : splitComma rest with
      | [] => exact absurd h ih
      | g :: gs => simp

theorem splitComma_no_comma (xs : List Char) (h : ∀ c ∈ xs, c ≠ ',') :
    splitComma xs = [xs] := by
  induction xs with
  | nil => rfl
  | cons c rest ih =>
    have hc : c ≠ ',' := h c (by simp)
    rw [splitComma, if_neg hc, ih (fun x hx => h x (by simp [hx]))]

theorem splitComma_append (xs rest : List Char) (h : ∀ c ∈ xs, c ≠ ',') :
    splitComma (xs ++ ',' :: rest) = xs :: splitComma rest := by
  induction xs with
  | nil => simp [splitComma]
  | cons c xs2 ih =>
    have hc : c ≠ ',' := h c (by simp)
    rw [List.cons_append, splitComma, if_neg hc,
      ih (fun x hx => h x (by simp [hx]))]

theorem splitComma_joinComma (l : List Nat) (hne : l ≠ []) :
    splitComma (joinComma (l.map decChars)) = l.map decChars := by
  induction l with
  | nil => exact absurd rfl hne
  | cons x xs ih =>
    cases xs with
    | nil =>
      show splitComma (joinComma [decChars x]) = [decChars x]
      rw [joinComma]
      exact splitComma_no_comma _ (decChars_ne_comma x)
    | cons y ys =>
      show splitComma (joinComma (decChars x :: decChars y :: ys.map decChars)) =
        decChars x :: decChars y :: ys.map decChars
      rw [joinComma, splitComma_append _ _ (decChars_ne_comma x)]
      have := ih (by simp)
      rw [show (y :: ys).map decChars = decChars y :: ys.map decChars from rfl] at this
      rw [this]

/-! `Playground.share` / `Playground.read`
(src/coral-component-playground/src/scripts/Playground.js)

`share()` starts from `'?'` and appends `name=value&` for each truthy
property in the order livereload, screen, code, compressing the code.
`read(query)` runs `_parseQueryString` — the global regex
`([^?=&]+)(=([^&]*))?`, assigning `objURL[$1] = decodeURI($3)` so later
keys win — and uncompresses a truthy code parameter. -/

/-- A `[^?=&]` character (a key character of `_parseQueryString`'s
regex). -/
def qsKeyChar (d : Char) : Bool := !(d == '?' || d == '=' || d == '&')

/-- A `[^&]` character (a value character of the regex). -/
def qsValChar (d : Char) : Bool := !(d == '&')

/-- The global scan of `([^?=&]+)(=([^&]*))?` over the query: skip
characters that cannot start a key, read a maximal key run, then an
optional `=` followed by a maximal value run.  Structural fuel (one unit
per scanned prefix) keeps the recursion kernel-reducible. -/
def parseQSAux : Nat → List Char → List (List Char × Option (List Char))
  | 0, _ => []
  | _ + 1, [] => []
  | fuel + 1, c :: rest =>
    if qsKeyChar c = false then parseQSAux fuel rest
    else
      if ((rest.dropWhile qsKeyChar).head? = some '=') then
        (c :: rest.takeWhile qsKeyChar,
          some (((rest.dropWhile qsKeyChar).tail).takeWhile qsValChar)) ::
          parseQSAux fuel (((rest.dropWhile qsKeyChar).tail).dropWhile qsValChar)
      else
        (c :: rest.takeWhile qsKeyChar, none) ::
          parseQSAux fuel (rest.dropWhile qsKeyChar)

/-- The regex scan with enough fuel for the whole query. -/
def parseQSRaw (q : List Char) : List (List Char × Option (List Char)) :=
  parseQSAux (q.length + 1) q

/-- `Playground._parseQueryString(query)`: the scan's matches with
`decodeURI` applied to each `$3` (`decodeURI(undefined)` is the string
`"undefined"` when the value group did not participate).  The browser's
`decodeURI` is a parameter. -/
def parseQueryStringFn (decURI : List Char → List Char) (q : List Char) :
    List (List Char × List Char) :=
  (parseQSRaw q).map (fun p =>
    (p.1, match p.2 with | some v => decURI v | none => "undefined".data))

/-- `objURL[$1] = ...` lets the last assignment to a name win. -/
def qsLookup (params : List (List Char × List Char)) (name : List Char) :
    Option (List Char) :=
  (params.reverse.find? (fun p => p.1 == name)).map (fun p => p.2)

/-- `name=value&`, one appended segment of `share()`'s query. -/
def propSeg (name value : List Char) : List Char := name ++ '=' :: value ++ ['&']

/-- `Playground.share()` restricted to its three properties: starting
from `'?'`, append a segment for each truthy property in source order
(a truthy boolean livereload prints as `true`; screen and code are
truthy when non-empty), compressing the code. -/
def shareQuery (deflate : List Nat → List Nat) (btoa : List Char → List Char)
    (lr : Bool) (screen : List Char) (codes : List Nat) : List Char :=
  let q1 := if lr then ['?'] ++ propSeg ("livereload".data) ("true".data)
            else ['?']
  let q2 := if screen ≠ [] then q1 ++ propSeg ("screen".data) screen else q1
  if codes ≠ [] then q2 ++ propSeg ("code".data) (compressFn deflate btoa codes)
  else q2

/-- The `code` entry of the config built by `Playground.read(query)`:
`none` when `read` leaves the property to the raw (falsy or absent)
parameter, `some` the uncompressed code units when
`property === 'code' && params[property]` holds. -/
def readCodeFn (inflate : List Nat → List Nat)
    (atob decURI : List Char → List Char) (query : List Char) :
    Option (List Nat) :=
  let params := parseQueryStringFn decURI query
  if params.isEmpty then none
  else
    match qsLookup params ("code".data) with
    | some v => if v ≠ [] then some (uncompressFn inflate atob v) else none
    | none => none

/-- The concatenation of `name=value&` segments that `share()`'s loop
appends after the initial `'?'`. -/
def joinSegs : List (List Char × List Char) → List Char
  | [] => []
  | (n, v) :: rest => n ++ '=' :: v ++ '&' :: joinSegs rest

/-- A segment the regex scan parses exactly: non-empty key of key
characters and an ampersand-free value. -/
def GoodSeg (p : List Char × List Char) : Prop :=
  p.1 ≠ [] ∧ (∀ c ∈ p.1, qsKeyChar c = true) ∧ (∀ c ∈ p.2, qsValChar c = true)

theorem joinSegs_append (a b : List (List Char × List Char)) :
    joinSegs (a ++ b) = joinSegs a ++ joinSegs b := by
  induction a with
  | nil => simp [joinSegs]
  | cons p rest ih =>
    obtain ⟨n, v⟩ := p
    simp [joinSegs, ih]

theorem takeWhile_append_all (p : Char → Bool) (xs : List Char) (y : Char)
    (ys : List Char) (hx : ∀ c ∈ xs, p c = true) (hy : p y = false) :
    (xs ++ y :: ys).takeWhile p = xs ∧ (xs ++ y :: ys).dropWhile p = y :: ys := by
  induction xs with
  | nil => simp [List.takeWhile_cons, List.dropWhile_cons, hy]
  | cons c xs2 ih =>
    have hc := hx c (by simp)
    have ih2 := ih (fun d hd => hx d (by simp [hd]))
    simp [List.takeWhile_cons, List.dropWhile_cons, hc, ih2.1, ih2.2]

theorem parseQSAux_joinSegs :
    ∀ (segs : List (List Char × List Char)), (∀ p ∈ segs, GoodSeg p) →
    ∀ fuel, (joinSegs segs).length < fuel →
    parseQSAux fuel (joinSegs segs) = segs.map (fun p => (p.1, some p.2)) := by
  intro segs
  induction segs with
  | nil =>
    intro _ fuel hf
    obtain ⟨f, rfl⟩ : ∃ f, fuel = f + 1 := ⟨fuel - 1, by omega⟩
    rfl
  | cons p rest ih =>
    intro h fuel hf
    obtain ⟨n, v⟩ := p
    obtain ⟨hn0, hnc, hvc⟩ := h (n, v) (by simp)
    match n, hn0 with
    | c :: ntail, _ =>
      have hJ : joinSegs ((c :: ntail, v) :: rest)
          = c :: (ntail ++ '=' :: (v ++ '&' :: joinSegs rest)) := by
        simp [joinSegs]
      rw [hJ] at hf ⊢
      obtain ⟨f, rfl⟩ : ∃ f, fuel = f + 1 := ⟨fuel - 1, by omega⟩
      have hc : qsKeyChar c = true := hnc c (by simp)
      have htk := takeWhile_append_all qsKeyChar ntail '='
        (v ++ '&' :: joinSegs rest) (fun d hd => hnc d (by simp [hd]))
        (by decide)
      have htv := takeWhile_append_all qsValChar v '&' (joinSegs rest)
        hvc (by decide)
      simp only [parseQSAux]
      rw [if_neg (by simp [hc]), htk.1, htk.2]
      rw [if_pos (by rfl)]
      simp only [List.tail_cons]
      rw [htv.1, htv.2]
      have hlen : (c :: (ntail ++ '=' :: (v ++ '&' :: joinSegs rest))).length =
          ntail.length + v.length + (joinSegs rest).length + 3 := by
        simp
        omega
      rw [hlen] at hf
      obtain ⟨f2, rfl⟩ : ∃ f2, f = f2 + 1 := ⟨f - 1, by omega⟩
      have hskip : parseQSAux (f2 + 1) ('&' :: joinSegs rest) =
          parseQSAux f2 (joinSegs rest) := by
        simp only [parseQSAux]
        rw [if_pos (by decide)]
      rw [hskip, ih (fun q hq => h q (by simp [hq])) f2 (by omega)]
      rfl

theorem parseQSRaw_query (segs : List (List Char × List Char))
    (h : ∀ p ∈ segs, GoodSeg p) :
    parseQSRaw ('?' :: joinSegs segs) = segs.map (fun p => (p.1, some p.2)) := by
  rw [parseQSRaw]
  have hlen : ('?' :: joinSegs segs).length + 1 =
      ((joinSegs segs).length + 1) + 1 := by simp
  rw [hlen]
  simp only [parseQSAux]
  rw [if_pos (by decide)]
  exact parseQSAux_joinSegs segs h _ (by omega)

theorem qsLookup_append_last (xs : List (List Char × List Char))
    (n v : List Char) : qsLookup (xs ++ [(n, v)]) n = some v := by
  rw [qsLookup, List.reverse_append]
  simp only [List.reverse_singleton, List.singleton_append]
  rw [List.find?_cons_of_pos _ (by simp)]
  rfl

theorem shareQuery_eq (deflate : List Nat → List Nat)
    (btoa : List Char → List Char) (lr : Bool) (screen : List Char)
    (codes : List Nat) (hc : codes ≠ []) :
    shareQuery deflate btoa lr screen codes =
      '?' :: joinSegs (
        (if lr then [(("livereload".data : List Char), ("true".data : List Char))]
         else []) ++
        (if screen ≠ [] then [(("screen".data : List Char), screen)] else []) ++
        [(("code".data : List Char), compressFn deflate btoa codes)]) := by
  by_cases hlr : lr <;> by_cases hs : screen ≠ [] <;>
    simp [shareQuery, hlr, hs, hc, joinSegs_append, joinSegs, propSeg]

/-- Claim C10: for every string whose code points fit in one byte,
`Playground._uncompress(Playground._compress(code))` equals `code`, and
the code property embedded in the query produced by `share()` is
recovered by `Playground.read` — given that the external rawinflate
inverts rawdeflate on the byte list, that the browser `atob` inverts
`btoa`, that `btoa`'s base64 output contains no ampersand or percent
sign and is non-empty, that `decodeURI` (a browser builtin) is the
identity on percent-free strings, and that the screen value is an
ampersand- and percent-free enum string.  The repository's plumbing —
char codes, the array-to-string coercion inside `btoa`, the comma
split, the string-to-number coercion inside rawinflate, the query
construction and the query-string regex — preserves the round trip. -/
theorem playground_compress_roundtrip
    (codes : List Nat) (deflate inflate : List Nat → List Nat)
    (btoa atob decURI : List Char → List Char)
    (lr : Bool) (screen : List Char)
    (hbyte : ∀ c ∈ codes, c < 256)
    (hinv : inflate (deflate codes) = codes)
    (hne : deflate codes ≠ [])
    (hb64 : ∀ s, atob (btoa s) = s)
    (hdec : ∀ s, (∀ c ∈ s, c ≠ '%') → decURI s = s)
    (hbchars : ∀ c ∈ btoa (joinComma ((deflate codes).map decChars)),
      c ≠ '&' ∧ c ≠ '%')
    (hbne : btoa (joinComma ((deflate codes).map decChars)) ≠ [])
    (hscreen : ∀ c ∈ screen, c ≠ '&' ∧ c ≠ '%') :
    uncompressFn inflate atob (compressFn deflate btoa codes) = codes ∧
    (codes ≠ [] →
      readCodeFn inflate atob decURI
        (shareQuery deflate btoa lr screen codes) = some codes) := by
  have hround : uncompressFn inflate atob (compressFn deflate btoa codes)
      = codes := by
    rw [uncompressFn, compressFn, hb64,
      splitComma_joinComma (deflate codes) hne, List.map_map]
    have hid : (parseDec ∘ decChars) = fun n => n :=
      funext fun n => parseDec_decChars n
    rw [hid, List.map_id']
    exact hinv
  refine ⟨hround, ?_⟩
  intro hc
  have hcomp : compressFn deflate btoa codes =
      btoa (joinComma ((deflate codes).map decChars)) := rfl
  set segs : List (List Char × List Char) :=
    (if lr then [(("livereload".data : List Char), ("true".data : List Char))]
     else []) ++
    (if screen ≠ [] then [(("screen".data : List Char), screen)] else []) ++
    [(("code".data : List Char), compressFn deflate btoa codes)] with hsegs
  have hgood : ∀ p ∈ segs, GoodSeg p := by
    intro p hp
    rw [hsegs] at hp
    simp only [List.mem_append, List.mem_singleton] at hp
    rcases hp with (hp | hp) | hp
    · by_cases hlr : lr
      · rw [if_pos hlr] at hp
        simp only [List.mem_singleton] at hp
        subst hp
        refine ⟨?_, ?_, ?_⟩
        · show ("livereload".data : List Char) ≠ []
          decide
        · show ∀ c ∈ ("livereload".data : List Char), qsKeyChar c = true
          decide
        · show ∀ c ∈ ("true".data : List Char), qsValChar c = true
          decide
      · rw [if_neg hlr] at hp
        simp at hp
    · by_cases hs : screen ≠ []
      · rw [if_pos hs] at hp
        simp only [List.mem_singleton] at hp
        subst hp
        refine ⟨?_, ?_, ?_⟩
        · show ("screen".data : List Char) ≠ []
          decide
        · show ∀ c ∈ ("screen".data : List Char), qsKeyChar c = true
          decide
        · intro d hd
          have := (hscreen d hd).1
          simp [qsValChar, this]
      · rw [if_neg hs] at hp
        simp at hp
    · subst hp
      refine ⟨?_, ?_, ?_⟩
      · show ("code".data : List Char) ≠ []
        decide
      · show ∀ c ∈ ("code".data : List Char), qsKeyChar c = true
        decide
      · intro d hd
        rw [hcomp] at hd
        have := (hbchars d hd).1
        simp [qsValChar, this]
  have hnopct : ∀ p ∈ segs, ∀ d ∈ p.2, d ≠ '%' := by
    intro p hp
    rw [hsegs] at hp
    simp only [List.mem_append, List.mem_singleton] at hp
    rcases hp with (hp | hp) | hp
    · by_cases hlr : lr
      · rw [if_pos hlr] at hp
        simp only [List.mem_singleton] at hp
        subst hp
        show ∀ d ∈ ("true".data : List Char), d ≠ '%'
        decide
      · rw [if_neg hlr] at hp
        simp at hp
    · by_cases hs : screen ≠ []
      · rw [if_pos hs] at hp
        simp only [List.mem_singleton] at hp
        subst hp
        intro d hd
        exact (hscreen d hd).2
      · rw [if_neg hs] at hp
        simp at hp
    · subst hp
      intro d hd
      rw [hcomp] at hd
      exact (hbchars d hd).2
  have hparams : parseQueryStringFn decURI
      (shareQuery deflate btoa lr screen codes) = segs := by
    rw [shareQuery_eq deflate btoa lr screen codes hc, ← hsegs,
      parseQueryStringFn, parseQSRaw_query segs hgood, List.map_map]
    have hcongr : ∀ p ∈ segs,
        ((fun p : List Char × Option (List Char) =>
            (p.1, match p.2 with
              | some v => decURI v
              | none => "undefined".data)) ∘
          fun p : List Char × List Char => (p.1, some p.2)) p = p := by
      intro p hp
      obtain ⟨pn, pv⟩ := p
      simp only [Function.comp_apply]
      rw [hdec pv (hnopct (pn, pv) hp)]
    rw [List.map_congr_left hcongr, List.map_id']
  have hsplit : segs =
      ((if lr then [(("livereload".data : List Char), ("true".data : List Char))]
        else []) ++
       (if screen ≠ [] then [(("screen".data : List Char), screen)] else [])) ++
      [(("code".data : List Char), compressFn deflate btoa codes)] := by
    rw [hsegs, List.append_assoc]
  rw [readCodeFn]
  simp only [hparams]
  have hnonempty : segs.isEmpty = false := by
    rw [hsplit]
    simp
  rw [hnonempty]
  simp only [Bool.false_eq_true, if_false]
  rw [hsplit, qsLookup_append_last]
  have hvne : compressFn deflate btoa codes ≠ [] := by
    rw [hcomp]
    exact hbne
  show (if compressFn deflate btoa codes ≠ [] then
      some (uncompressFn inflate atob (compressFn deflate btoa codes))
    else none) = some codes
  rw [if_pos hvne, hround]

/-- Witness for C10: the round trip and the share/read recovery at the
concrete code units of "Hi", with livereload on, screen "vertical", and
the identity functions standing in for rawdeflate/rawinflate, btoa/atob
and decodeURI. -/
theorem playground_compress_roundtrip_witness :
    (∀ c ∈ [72, 105], c < 256) ∧ ([72, 105] : List Nat) ≠ [] ∧
    uncompressFn id id (compressFn id id [72, 105]) = [72, 105] ∧
    readCodeFn id id id (shareQuery id id true ("vertical".data) [72, 105]) =
      some [72, 105] := by
  have h := playground_compress_roundtrip [72, 105] id id id id id true
    ("vertical".data) (by decide) rfl (by decide) (fun s => rfl)
    (fun s _ => rfl) (by decide) (by decide) (by decide)
  exact ⟨by decide, by decide, h.1, h.2 (by decide)⟩

end Coral
